import Mathlib

/-!
# Verification of the silence-trimming module (`trim.py`)

A shallow embedding of the librosa-derived trimming pipeline:
`frame`, `rms`, `power_to_db`, `amplitude_to_db`,
`_signal_to_frame_nonsilent`, `trim` and `frames_to_samples`.

Modelling conventions:
* Signals are 1-D (mono) `List ℝ`; floating point numbers are idealized
  as real numbers, so `np.sqrt` is `Real.sqrt` and `np.log10` is
  `Real.logb 10` (dtype coercions such as float32 are dropped).
* Spectrograms are `List (List ℝ)` (rows = frequency bins, so
  `S.shape[-2]` is the number of rows).
* Fallible functions return `Except String`, carrying the source's
  `ParameterError` message strings.
* `ref`/`aggregate` parameters that may be a scalar or a callable become
  the tagged type `Ref` (cf. the duck-typed `float | Callable`).
* numpy's `x[::hop]` strided slice is `strideSlice`, and the
  `as_strided` sliding-window construction is `windows`.
-/

namespace Kokoro

/-- numpy `l[::hop]`: keep one element, then skip `hop - 1`, repeatedly. -/
def strideSlice {α : Type} (hop : ℕ) : List α → List α
  | [] => []
  | a :: tl => a :: strideSlice hop (tl.drop (hop - 1))
termination_by l => l.length
decreasing_by
  simp only [List.length_drop, List.length_cons]
  omega

/-- The `as_strided` sliding-window view for a 1-D array: all windows of
length `frame_length` starting at positions `0, 1, …, n - (frame_length-1) - 1`
(the source's `out_shape`, whose framing axis is `x.shape - (frame_length - 1)`). -/
def windows {α : Type} (x : List α) (frame_length : ℕ) : List (List α) :=
  (List.range (x.length - (frame_length - 1))).map
    (fun i => (x.drop i).take frame_length)

/-- `frame(x, frame_length, hop_length, axis=-1)` for 1-D input: validate,
build the sliding-window view, then downsample the frame axis by `hop_length`. -/
def frame {α : Type} (x : List α) (frame_length hop_length : ℕ) :
    Except String (List (List α)) :=
  if x.length < frame_length then
    .error s!"Input is too short (n={x.length}) for frame_length={frame_length}"
  else if hop_length < 1 then
    .error s!"Invalid hop_length: {hop_length}"
  else
    .ok (strideSlice hop_length (windows x frame_length))

/-- `abs2` on real input: `np.square`. -/
def abs2 (x : ℝ) : ℝ := x ^ 2

/-- `np.max` over a 1-D array (junk value `0` on the empty array,
which numpy rejects; only ever used on nonempty arrays here). -/
def listMax : List ℝ → ℝ
  | [] => 0
  | a :: tl => tl.foldl max a

/-- A `float | Callable` reference/aggregate parameter. -/
inductive Ref : Type
  | scalar (r : ℝ)
  | callable (f : List ℝ → ℝ)

/-- Resolve a `Ref` against the magnitude array, as `power_to_db` and
`amplitude_to_db` do: a callable is applied to the array, a scalar is
taken by absolute value (`np.abs(ref)`). -/
noncomputable def Ref.value (ref : Ref) (magnitude : List ℝ) : ℝ :=
  match ref with
  | .scalar r => |r|
  | .callable f => f magnitude

/-- `power_to_db(S, ref=ref, amin=amin, top_db=top_db)` on real input. -/
noncomputable def power_to_db (S : List ℝ) (ref : Ref) (amin : ℝ)
    (top_db : Option ℝ) : Except String (List ℝ) :=
  if amin ≤ 0 then .error "amin must be strictly positive"
  else
    let magnitude := S
    let ref_value := ref.value magnitude
    let log_spec := magnitude.map
      (fun s => 10 * Real.logb 10 (max amin s) - 10 * Real.logb 10 (max amin ref_value))
    match top_db with
    | none => .ok log_spec
    | some t =>
      if t < 0 then .error "top_db must be non-negative"
      else .ok (log_spec.map (fun v => max v (listMax log_spec - t)))

/-- `amplitude_to_db(S, ref=ref, amin=amin, top_db=top_db)` on real input:
take magnitudes, resolve the reference, square both, and call `power_to_db`. -/
noncomputable def amplitude_to_db (S : List ℝ) (ref : Ref) (amin : ℝ)
    (top_db : Option ℝ) : Except String (List ℝ) :=
  let magnitude := S.map (fun v => |v|)
  let ref_value := ref.value magnitude
  let power := magnitude.map (fun v => v ^ 2)
  power_to_db power (.scalar (ref_value ^ 2)) (amin ^ 2) top_db

/-- `np.sum(x, axis=-2)` for a rectangular 2-D array given as rows. -/
def colSums : List (List ℝ) → List ℝ
  | [] => []
  | r :: rest => rest.foldl (fun acc row => List.zipWith (· + ·) acc row) r

/-- The spectrogram branch of `rms`: validate the frequency-axis length,
square, halve the DC bin (and the Nyquist bin for even `frame_length`),
sum across frequencies and scale by `2 / frame_length**2`, producing the
per-frame power estimate. -/
noncomputable def rmsSpectrogramPower (S : List (List ℝ)) (frame_length : ℕ) :
    Except String (List ℝ) :=
  let d := S.length
  if d ≠ frame_length / 2 + 1 then
    .error s!"Since S.shape[-2] is {d}, frame_length is expected to be {d * 2 - 2} or {d * 2 - 1}; found {frame_length}"
  else
    let x := S.map (fun row => row.map abs2)
    let x := x.mapIdx (fun i row => if i = 0 then row.map (fun v => v * (1/2)) else row)
    let x := if frame_length % 2 = 0 then
        x.mapIdx (fun i row => if i + 1 = x.length then row.map (fun v => v * (1/2)) else row)
      else x
    .ok ((colSums x).map (fun v => 2 * v / (frame_length : ℝ) ^ 2))

/-- `rms(y=y, S=S, frame_length, hop_length, center)`: the `y` branch pads
(for `center`) and frames the samples and takes the mean squared magnitude
per frame; the `S` branch uses the spectrogram power; with neither input it
raises.  The trailing singleton channel axis of the source's
`(…, 1, t)`-shaped output is dropped (its only consumer immediately
indexes it away with `mse[..., 0, :]`). -/
noncomputable def rms (y : Option (List ℝ)) (S : Option (List (List ℝ)))
    (frame_length hop_length : ℕ) (center : Bool) : Except String (List ℝ) :=
  match y with
  | some y =>
    let y := if center then
        List.replicate (frame_length / 2) (0 : ℝ) ++ y ++
          List.replicate (frame_length / 2) (0 : ℝ)
      else y
    (frame y frame_length hop_length).map (fun x =>
      let power := x.map (fun f => (f.map abs2).sum / (frame_length : ℝ))
      power.map Real.sqrt)
  | none =>
    match S with
    | some S =>
      (rmsSpectrogramPower S frame_length).map (fun power => power.map Real.sqrt)
    | none => .error "Either `y` or `S` must be input."

/-- `_signal_to_frame_nonsilent(y, frame_length, hop_length, top_db, ref)`
for mono input (1-D `db` needs no cross-channel aggregation): RMS, then
`amplitude_to_db` with the default `amin = 1e-5` and `top_db=None`, then
threshold at `-top_db`. -/
noncomputable def signal_to_frame_nonsilent (y : List ℝ)
    (frame_length hop_length : ℕ) (top_db : ℝ) (ref : Ref) :
    Except String (List Bool) :=
  (rms (some y) none frame_length hop_length true).bind (fun mse =>
    (amplitude_to_db mse ref (1/100000) none).map (fun db =>
      db.map (fun v => decide (-top_db < v))))

/-- `frames_to_samples(frames, hop_length, n_fft)` for a scalar frame index. -/
def frames_to_samples (frames : ℕ) (hop_length : ℕ) (n_fft : Option ℕ) : ℕ :=
  frames * hop_length + (match n_fft with | some n => n / 2 | none => 0)

/-- `np.flatnonzero` of a boolean array. -/
def flatnonzero (m : List Bool) : List ℕ :=
  (List.range m.length).filter (fun j => m.getD j false)

/-- `trim(y, top_db=top_db, ref=ref, frame_length, hop_length)` for mono
input: compute the non-silence mask, locate the first and last non-silent
frames, convert to sample indices, and slice.  Returns the trimmed signal
and the pair `(start, end)`. -/
noncomputable def trim (y : List ℝ) (top_db : ℝ) (ref : Ref)
    (frame_length hop_length : ℕ) : Except String (List ℝ × ℕ × ℕ) :=
  (signal_to_frame_nonsilent y frame_length hop_length top_db ref).map
    (fun non_silent =>
      let nonzero := flatnonzero non_silent
      let se : ℕ × ℕ := match nonzero with
        | [] => (0, 0)
        | j0 :: rest =>
          (frames_to_samples j0 hop_length none,
           min y.length
             (frames_to_samples ((j0 :: rest).getLast (List.cons_ne_nil _ _) + 1)
               hop_length none))
      ((y.drop se.1).take (se.2 - se.1), se.1, se.2))

/-- `Except` success test (the library's `isOk`). -/
def isOk {ε α : Type} : Except ε α → Bool
  | .ok _ => true
  | .error _ => false

/-! ## Lemmas about the framing engine -/

theorem strideSlice_nil {α : Type} (hop : ℕ) :
    strideSlice hop ([] : List α) = [] := by
  rw [strideSlice]

theorem strideSlice_cons {α : Type} (hop : ℕ) (a : α) (tl : List α) :
    strideSlice hop (a :: tl) = a :: strideSlice hop (tl.drop (hop - 1)) := by
  rw [strideSlice]

theorem strideSlice_getElem? {α : Type} {hop : ℕ} (hhop : 1 ≤ hop) :
    ∀ l : List α, ∀ j : ℕ, (strideSlice hop l)[j]? = l[j * hop]?
  | [], j => by rw [strideSlice_nil]; simp
  | a :: tl, 0 => by rw [strideSlice_cons]; simp
  | a :: tl, j + 1 => by
    rw [strideSlice_cons]
    have ih := strideSlice_getElem? hhop (tl.drop (hop - 1)) j
    rw [List.getElem?_cons_succ, ih, List.getElem?_drop, Nat.succ_mul]
    have h1 : j * hop + hop = (hop - 1 + j * hop) + 1 := by omega
    rw [h1, List.getElem?_cons_succ]
termination_by l _ => l.length
decreasing_by
  simp only [List.length_drop, List.length_cons]
  omega

theorem strideSlice_length {α : Type} {hop : ℕ} (hhop : 1 ≤ hop) :
    ∀ l : List α, (strideSlice hop l).length =
      if l.length = 0 then 0 else (l.length - 1) / hop + 1
  | [] => by rw [strideSlice_nil]; simp
  | a :: tl => by
    rw [strideSlice_cons]
    have ih := strideSlice_length hhop (tl.drop (hop - 1))
    simp only [List.length_cons, List.length_drop] at ih ⊢
    rw [ih]
    rcases Nat.eq_zero_or_pos (tl.length - (hop - 1)) with h0 | hpos
    · rw [if_pos h0]
      have : tl.length < hop := by omega
      simp [Nat.div_eq_of_lt this]
    · rw [if_neg (by omega)]
      have hge : hop ≤ tl.length := by omega
      have : tl.length - (hop - 1) - 1 = tl.length - hop := by omega
      rw [this]
      have : tl.length - hop + hop = tl.length := Nat.sub_add_cancel hge
      have hdiv : tl.length / hop = (tl.length - hop) / hop + 1 := by
        conv_lhs => rw [← Nat.sub_add_cancel hge]
        rw [Nat.add_div_right _ (by omega)]
      simp [hdiv]
termination_by l => l.length
decreasing_by
  simp only [List.length_drop, List.length_cons]
  omega

theorem windows_length {α : Type} (x : List α) (fl : ℕ) :
    (windows x fl).length = x.length - (fl - 1) := by
  simp [windows]

theorem windows_getElem? {α : Type} (x : List α) (fl i : ℕ)
    (hi : i < x.length - (fl - 1)) :
    (windows x fl)[i]? = some ((x.drop i).take fl) := by
  simp [windows, List.getElem?_map, List.getElem?_range hi]

/-- C4: with `x.shape[-1] ≥ frame_length` and `hop_length ≥ 1`,
`frame(x, frame_length, hop_length, axis=-1)` yields exactly
`(x.shape[-1] - frame_length) / hop_length + 1` frames and frame `j` is the
contiguous slice `x[j*hop_length : j*hop_length + frame_length]`; an input
shorter than `frame_length` fails with the "too short" error, and
`hop_length < 1` fails with the "invalid hop_length" error. -/
theorem frame_spec {α : Type} (x : List α) (frame_length hop_length : ℕ)
    (hfl : 1 ≤ frame_length) :
    (x.length < frame_length →
      frame x frame_length hop_length =
        .error s!"Input is too short (n={x.length}) for frame_length={frame_length}") ∧
    (frame_length ≤ x.length → hop_length < 1 →
      frame x frame_length hop_length =
        .error s!"Invalid hop_length: {hop_length}") ∧
    (frame_length ≤ x.length → 1 ≤ hop_length →
      ∃ frames, frame x frame_length hop_length = .ok frames ∧
        frames.length = (x.length - frame_length) / hop_length + 1 ∧
        ∀ j, j < frames.length →
          frames[j]? = some ((x.drop (j * hop_length)).take frame_length)) := by
  refine ⟨fun hshort => by simp [frame, hshort], fun hlong hhop => by
    simp [frame, Nat.not_lt.mpr hlong, hhop], fun hlong hhop => ?_⟩
  refine ⟨strideSlice hop_length (windows x frame_length), ?_, ?_, ?_⟩
  · simp [frame, Nat.not_lt.mpr hlong, Nat.not_lt.mpr hhop]
  · rw [strideSlice_length hhop, windows_length]
    have hw : x.length - (frame_length - 1) = x.length - frame_length + 1 := by omega
    rw [hw]
    simp
  · intro j hj
    rw [strideSlice_length hhop, windows_length] at hj
    have hw : x.length - (frame_length - 1) = x.length - frame_length + 1 := by omega
    rw [hw] at hj
    simp only [if_neg (Nat.succ_ne_zero _), Nat.add_sub_cancel] at hj
    have hjle : j ≤ (x.length - frame_length) / hop_length := by omega
    have hmul : j * hop_length ≤ x.length - frame_length :=
      (Nat.le_div_iff_mul_le (by omega)).mp hjle
    rw [strideSlice_getElem? hhop, windows_getElem?]
    omega

/-- Witness for `frame_spec` at concrete inputs. -/
theorem frame_spec_witness :
    frame ([1, 2, 3] : List ℕ) 4 1 =
      .error "Input is too short (n=3) for frame_length=4" ∧
    frame ([1, 2, 3, 4, 5] : List ℕ) 2 2 = .ok [[1, 2], [3, 4]] := by
  constructor
  · exact (frame_spec [1, 2, 3] 4 1 (by norm_num)).1 (by norm_num)
  · simp [frame, windows, List.range_succ, strideSlice_cons, strideSlice_nil]

/-! ## Lemmas about `listMax` (`np.max`) -/

theorem foldl_max_init_le : ∀ (tl : List ℝ) (a a' : ℝ), a ≤ a' →
    tl.foldl max a ≤ tl.foldl max a'
  | [], _, _, h => h
  | c :: tl, a, a', h => by
    simpa using foldl_max_init_le tl (max a c) (max a' c) (max_le_max h le_rfl)

theorem le_foldl_max : ∀ (tl : List ℝ) (a : ℝ), a ≤ tl.foldl max a
  | [], _ => le_rfl
  | c :: tl, a => le_trans (le_max_left a c) (le_foldl_max tl (max a c))

theorem le_listMax {l : List ℝ} {b : ℝ} (hb : b ∈ l) : b ≤ listMax l := by
  match l, hb with
  | a :: tl, hb =>
    rw [listMax]
    rcases List.mem_cons.mp hb with rfl | hbtl
    · exact le_foldl_max tl b
    · clear hb
      induction tl generalizing a with
      | nil => cases hbtl
      | cons c tl ih =>
        rcases List.mem_cons.mp hbtl with rfl | h
        · exact le_trans (le_max_right a b) (le_foldl_max tl (max a b))
        · exact ih (max a c) h

theorem listMax_mem : ∀ {l : List ℝ}, l ≠ [] → listMax l ∈ l
  | [], h => absurd rfl h
  | a :: tl, _ => by
    rw [listMax]
    clear * -
    induction tl generalizing a with
    | nil => simp
    | cons c tl ih =>
      simp only [List.foldl_cons]
      rcases List.mem_cons.mp (ih (max a c)) with h1 | h1
      · rw [h1]
        rcases max_choice a c with hm | hm <;> rw [hm] <;> simp
      · simp [h1]

theorem listMax_le {l : List ℝ} {b : ℝ} (hl : l ≠ []) (h : ∀ x ∈ l, x ≤ b) :
    listMax l ≤ b :=
  h _ (listMax_mem hl)

theorem foldl_max_forall₂ {tl1 tl2 : List ℝ}
    (h : List.Forall₂ (· ≤ ·) tl1 tl2) :
    ∀ {a1 a2 : ℝ}, a1 ≤ a2 → tl1.foldl max a1 ≤ tl2.foldl max a2 := by
  induction h with
  | nil => exact fun h12 => h12
  | cons hc _ ih => exact fun h12 => ih (max_le_max h12 hc)

theorem listMax_forall₂_le : ∀ {l1 l2 : List ℝ},
    List.Forall₂ (· ≤ ·) l1 l2 → l1 ≠ [] → listMax l1 ≤ listMax l2
  | [], _, _, h => absurd rfl h
  | _ :: _, _ :: _, List.Forall₂.cons h12 htl, _ =>
    foldl_max_forall₂ htl h12

/-! ## The decibel converter -/

/-- C5: `power_to_db` rejects `amin ≤ 0`, rejects a supplied negative
`top_db`, and otherwise returns
`10*log10(max(amin, S)) - 10*log10(max(amin, ref_value))` elementwise
(`ref_value` being `ref(S)` for a callable and the given scalar otherwise —
the spec restricts scalar references to be non-negative), each element then
clamped from below at (global max − top_db) when `top_db` is supplied. -/
theorem power_to_db_spec (S : List ℝ) (ref : Ref) (amin : ℝ) (top_db : Option ℝ)
    (href : ∀ r, ref = .scalar r → 0 ≤ r) :
    (amin ≤ 0 →
      power_to_db S ref amin top_db = .error "amin must be strictly positive") ∧
    (0 < amin → ∀ t, top_db = some t → t < 0 →
      power_to_db S ref amin top_db = .error "top_db must be non-negative") ∧
    (0 < amin →
      let rv : ℝ := match ref with | .scalar r => r | .callable f => f S
      let u := S.map (fun s =>
        10 * Real.logb 10 (max amin s) - 10 * Real.logb 10 (max amin rv))
      (top_db = none → power_to_db S ref amin top_db = .ok u) ∧
      (∀ t, top_db = some t → 0 ≤ t →
        power_to_db S ref amin top_db =
          .ok (u.map (fun v => max v (listMax u - t))))) := by
  have hval : ref.value S = (match ref with | .scalar r => r | .callable f => f S) := by
    cases ref with
    | scalar r => exact abs_of_nonneg (href r rfl)
    | callable f => rfl
  refine ⟨fun ha => by simp [power_to_db, ha], fun ha t hts htneg => ?_, fun ha => ?_⟩
  · subst hts
    simp [power_to_db, not_le.mpr ha, htneg]
  · refine ⟨fun hnone => ?_, fun t hts ht => ?_⟩
    · subst hnone
      simp [power_to_db, not_le.mpr ha, hval]
    · subst hts
      simp [power_to_db, not_le.mpr ha, not_lt.mpr ht, hval]

/-- Witness for `power_to_db_spec`: with `amin = 1`, scalar reference `1`
and `top_db = 0`, the dB value of the singleton array `[1]` is `[0]`. -/
theorem power_to_db_spec_witness :
    power_to_db [1] (.scalar 1) 1 (some 0) = .ok [0] := by
  have h := (power_to_db_spec [1] (.scalar 1) 1 (some 0)
    (fun r hr => by cases hr; norm_num)).2.2 (by norm_num)
  rw [h.2 0 rfl le_rfl]
  norm_num [listMax]

theorem clamp_list_spec (u : List ℝ) (t : ℝ) (hune : u ≠ []) (ht : 0 ≤ t) :
    (∀ v ∈ u.map (fun v => max v (listMax u - t)), listMax u - t ≤ v) ∧
    listMax (u.map (fun v => max v (listMax u - t))) = listMax u := by
  constructor
  · intro v hv
    obtain ⟨w, _, rfl⟩ := List.mem_map.mp hv
    exact le_max_right _ _
  · apply le_antisymm
    · apply listMax_le (by simpa using hune)
      intro x hx
      obtain ⟨w, hw, rfl⟩ := List.mem_map.mp hx
      exact max_le (le_listMax hw) (by linarith)
    · have hmem : listMax u ∈ u.map (fun v => max v (listMax u - t)) :=
        List.mem_map.mpr
          ⟨listMax u, listMax_mem hune, by rw [max_eq_left (by linarith)]⟩
      exact le_listMax hmem

/-- C6: with `amin > 0` and `top_db ≥ 0`, every element of the clamped
output is at least the unclamped global maximum minus `top_db`, and the
global maximum is unchanged by clamping. -/
theorem power_to_db_clamp_spec (S : List ℝ) (ref : Ref) (amin t : ℝ)
    (hS : S ≠ []) (ht : 0 ≤ t) (u out : List ℝ)
    (hu : power_to_db S ref amin none = .ok u)
    (hout : power_to_db S ref amin (some t) = .ok out) :
    (∀ v ∈ out, listMax u - t ≤ v) ∧ listMax out = listMax u := by
  by_cases ha : amin ≤ 0
  · simp [power_to_db, ha] at hu
  · simp only [power_to_db, if_neg ha, if_neg (not_lt.mpr ht),
      Except.ok.injEq] at hu hout
    subst hu
    subst hout
    exact clamp_list_spec _ t (by simpa using hS) ht

/-- Witness for `power_to_db_clamp_spec` on `S = [1]`, `ref = 1`,
`amin = 1`, `top_db = 0`. -/
theorem power_to_db_clamp_spec_witness :
    (∀ v ∈ ([0] : List ℝ), listMax [0] - 0 ≤ v) ∧
      listMax ([0] : List ℝ) = listMax [0] := by
  have h0 : power_to_db [1] (.scalar 1) 1 none = .ok [0] := by
    simp [power_to_db, Ref.value, listMax]
  have h1 : power_to_db [1] (.scalar 1) 1 (some 0) = .ok [0] := by
    simp [power_to_db, Ref.value, listMax]
  exact power_to_db_clamp_spec [1] (.scalar 1) 1 0 (by simp) le_rfl
    [0] [0] h0 h1

/-- The elementwise dB map is monotone non-decreasing. -/
theorem db_entry_mono {amin s1 s2 rv : ℝ} (ha : 0 < amin) (h : s1 ≤ s2) :
    10 * Real.logb 10 (max amin s1) - 10 * Real.logb 10 (max amin rv) ≤
      10 * Real.logb 10 (max amin s2) - 10 * Real.logb 10 (max amin rv) := by
  have h1 : (0 : ℝ) < max amin s1 := lt_of_lt_of_le ha (le_max_left _ _)
  have hlog : Real.logb 10 (max amin s1) ≤ Real.logb 10 (max amin s2) :=
    Real.logb_le_logb_of_le (by norm_num) h1 (max_le_max le_rfl h)
  linarith

/-- C7: for equally-shaped inputs with `S1 ≤ S2` elementwise and a fixed
scalar reference, `power_to_db` is monotone non-decreasing elementwise. -/
theorem power_to_db_mono (S1 S2 : List ℝ)
    (h12 : List.Forall₂ (· ≤ ·) S1 S2) (r amin : ℝ) (ha : 0 < amin)
    (top_db : Option ℝ) (o1 o2 : List ℝ)
    (h1 : power_to_db S1 (.scalar r) amin top_db = .ok o1)
    (h2 : power_to_db S2 (.scalar r) amin top_db = .ok o2) :
    List.Forall₂ (· ≤ ·) o1 o2 := by
  have hu : List.Forall₂ (· ≤ ·)
      (S1.map (fun s => 10 * Real.logb 10 (max amin s) -
        10 * Real.logb 10 (max amin (Ref.value (.scalar r) S1))))
      (S2.map (fun s => 10 * Real.logb 10 (max amin s) -
        10 * Real.logb 10 (max amin (Ref.value (.scalar r) S2)))) := by
    have : Ref.value (.scalar r) S1 = Ref.value (.scalar r) S2 := rfl
    rw [this]
    exact List.forall₂_map_right_iff.mpr
      (List.forall₂_map_left_iff.mpr
        (List.Forall₂.imp (fun _ _ hab => db_entry_mono ha hab) h12))
  rcases top_db with _ | t
  · simp only [power_to_db, if_neg (not_le.mpr ha), Except.ok.injEq] at h1 h2
    rw [← h1, ← h2]
    exact hu
  · by_cases htneg : t < 0
    · simp [power_to_db, if_neg (not_le.mpr ha), htneg] at h1
    · simp only [power_to_db, if_neg (not_le.mpr ha), if_neg htneg,
        Except.ok.injEq] at h1 h2
      rw [← h1, ← h2]
      rcases S1 with _ | ⟨a1, tl1⟩
      · cases h12
        simp
      · rcases S2 with _ | ⟨a2, tl2⟩
        · cases h12
        · have hM : listMax (List.map (fun s => 10 * Real.logb 10 (max amin s) -
              10 * Real.logb 10 (max amin (Ref.value (.scalar r) (a1 :: tl1))))
                (a1 :: tl1)) ≤
              listMax (List.map (fun s => 10 * Real.logb 10 (max amin s) -
              10 * Real.logb 10 (max amin (Ref.value (.scalar r) (a2 :: tl2))))
                (a2 :: tl2)) :=
            listMax_forall₂_le hu (by simp)
          refine List.forall₂_map_right_iff.mpr (List.forall₂_map_left_iff.mpr ?_)
          exact List.Forall₂.imp
            (fun _ _ hab => max_le_max hab (sub_le_sub_right hM t)) hu

/-- Witness for `power_to_db_mono` on `S1 = [1] ≤ S2 = [1]`. -/
theorem power_to_db_mono_witness : List.Forall₂ (· ≤ ·) ([0] : List ℝ) [0] := by
  have h : power_to_db [1] (.scalar 1) 1 (some 0) = .ok [0] := by
    simp [power_to_db, Ref.value, listMax]
  exact power_to_db_mono [1] [1] (by simp) 1 1 one_pos (some 0) [0] [0] h h

/-- C8: `amplitude_to_db(S, ref, amin, top_db)` coincides with
`power_to_db(S**2, ref**2, amin**2, top_db)` for a scalar reference
(including agreement of the error cases). -/
theorem amplitude_to_db_eq_power_to_db_sq (S : List ℝ) (r amin : ℝ)
    (top_db : Option ℝ) :
    amplitude_to_db S (.scalar r) amin top_db =
      power_to_db (S.map (fun v => v ^ 2)) (.scalar (r ^ 2)) (amin ^ 2) top_db := by
  have hmap : (S.map (fun v => |v|)).map (fun v => v ^ 2) =
      S.map (fun v => v ^ 2) := by
    rw [List.map_map]
    exact List.map_congr_left (fun a _ => by simp [sq_abs])
  have habs : |(|r| : ℝ) ^ 2| = |r ^ 2| := by
    rw [sq_abs]
  simp only [amplitude_to_db, power_to_db, Ref.value]
  rw [hmap, habs]

/-- C10: a scalar reference is used by absolute value: negating it changes
nothing in `power_to_db` or `amplitude_to_db`, and with valid `amin` and
`top_db` a negative scalar reference is accepted (result is `ok`). -/
theorem scalar_ref_sign_invariant (S : List ℝ) (r amin : ℝ)
    (top_db : Option ℝ) :
    power_to_db S (.scalar r) amin top_db =
      power_to_db S (.scalar (-r)) amin top_db ∧
    amplitude_to_db S (.scalar r) amin top_db =
      amplitude_to_db S (.scalar (-r)) amin top_db ∧
    (0 < amin → (∀ t, top_db = some t → 0 ≤ t) →
      isOk (power_to_db S (.scalar (-r)) amin top_db) = true ∧
      isOk (amplitude_to_db S (.scalar (-r)) amin top_db) = true) := by
  have hval : ∀ l, Ref.value (.scalar (-r)) l = Ref.value (.scalar r) l :=
    fun l => by simp [Ref.value]
  refine ⟨by simp only [power_to_db]; rw [hval], ?_, fun ha htop => ?_⟩
  · simp only [amplitude_to_db]
    rw [hval]
  · have hok : ∀ (S' : List ℝ) (ref : Ref) (amin' : ℝ), 0 < amin' →
        isOk (power_to_db S' ref amin' top_db) = true := by
      intro S' ref amin' ha'
      rcases top_db with _ | t
      · simp [power_to_db, if_neg (not_le.mpr ha'), isOk]
      · have ht : 0 ≤ t := htop t rfl
        simp [power_to_db, if_neg (not_le.mpr ha'), if_neg (not_lt.mpr ht), isOk]
    refine ⟨hok S _ amin ha, ?_⟩
    rw [amplitude_to_db]
    exact hok _ _ (amin ^ 2) (by positivity)

/-- Witness for `scalar_ref_sign_invariant` at `S = [1]`, `r = 1`,
`amin = 1`, `top_db = 0`. -/
theorem scalar_ref_sign_invariant_witness :
    isOk (power_to_db [1] (.scalar (-1)) 1 (some 0)) = true ∧
    isOk (amplitude_to_db [1] (.scalar (-1)) 1 (some 0)) = true :=
  (scalar_ref_sign_invariant [1] 1 1 (some 0)).2.2 one_pos
    (fun t ht => by cases ht; exact le_rfl)

/-! ## Input validation of the RMS estimator -/

/-- Counterexample to C2: when both `y` and `S` are supplied, `rms` does
not raise "either y or S required" — the sample branch is taken and the
call succeeds. -/
theorem rms_both_inputs_accepted :
    isOk (rms (some [0, 0]) (some [[1]]) 1 1 true) = true := by
  simp [rms, frame, windows, List.range_succ, strideSlice_cons,
    strideSlice_nil, isOk, Except.map]

/-- C2 (amended): `rms` raises "Either `y` or `S` must be input." exactly
when neither input is supplied; a supplied `y` takes precedence over `S`
(no error when both are given); a lone `S` of valid shape and a lone `y`
of sufficient (padded) length are accepted. -/
theorem rms_input_spec :
    (∀ (fl hop : ℕ) (c : Bool),
      rms none none fl hop c = .error "Either `y` or `S` must be input.") ∧
    (∀ (y : List ℝ) (S : Option (List (List ℝ))) (fl hop : ℕ) (c : Bool),
      rms (some y) S fl hop c = rms (some y) none fl hop c) ∧
    (∀ (S : List (List ℝ)) (fl hop : ℕ) (c : Bool),
      S.length = fl / 2 + 1 → isOk (rms none (some S) fl hop c) = true) ∧
    (∀ (y : List ℝ) (fl hop : ℕ), fl ≤ y.length + 2 * (fl / 2) → 1 ≤ hop →
      isOk (rms (some y) none fl hop true) = true) := by
  refine ⟨fun fl hop c => rfl, fun y S fl hop c => rfl,
    fun S fl hop c h => ?_, fun y fl hop hlen hhop => ?_⟩
  · simp [rms, rmsSpectrogramPower, h, isOk, Except.map]
  · have hpad : (List.replicate (fl / 2) (0 : ℝ) ++ y ++
        List.replicate (fl / 2) (0 : ℝ)).length = y.length + 2 * (fl / 2) := by
      simp
      omega
    simp only [rms, eq_self_iff_true, if_true]
    rw [frame]
    rw [if_neg (by rw [hpad]; omega), if_neg (by omega)]
    simp [isOk, Except.map]

/-- Witness for `rms_input_spec` at concrete inputs. -/
theorem rms_input_spec_witness :
    isOk (rms none (some [[1]]) 1 1 true) = true ∧
    isOk (rms (some [0, 0]) none 1 1 true) = true := by
  refine ⟨rms_input_spec.2.2.1 [[1]] 1 1 true (by simp), ?_⟩
  exact rms_input_spec.2.2.2 [0, 0] 1 1 (by simp) le_rfl

/-- Counterexample to C3: a spectrogram with `d = frame_length // 2` rows
(here `d = 2`, `frame_length = 4`) is rejected, not accepted — the code
accepts only `d = frame_length // 2 + 1`. -/
theorem rms_spectrogram_half_rejected :
    rms none (some [[1], [1]]) 4 1 true =
      .error "Since S.shape[-2] is 2, frame_length is expected to be 2 or 3; found 4" := by
  simp only [rms, rmsSpectrogramPower]
  rw [if_pos (by norm_num)]
  rfl

/-- C3 (amended): the spectrogram branch accepts `S` exactly when
`S.shape[-2] = frame_length // 2 + 1` (equivalently `frame_length` is
`2*d - 2` or `2*d - 1`); for any other `d` it raises the `ShapeMismatch`
error naming the two acceptable frame lengths `2*d - 2` and `2*d - 1`. -/
theorem rms_spectrogram_shape_spec (S : List (List ℝ)) (fl hop d : ℕ)
    (c : Bool) (hd : d = S.length) :
    (d = fl / 2 + 1 → isOk (rms none (some S) fl hop c) = true) ∧
    (d ≠ fl / 2 + 1 → rms none (some S) fl hop c =
      .error s!"Since S.shape[-2] is {d}, frame_length is expected to be {d * 2 - 2} or {d * 2 - 1}; found {fl}") := by
  subst hd
  constructor
  · intro h
    simp [rms, rmsSpectrogramPower, h, isOk, Except.map]
  · intro h
    simp [rms, rmsSpectrogramPower, h, Except.map]

/-- Witness for `rms_spectrogram_shape_spec`: a two-row spectrogram with
`frame_length = 2` is accepted. -/
theorem rms_spectrogram_shape_spec_witness :
    isOk (rms none (some [[1], [1]]) 2 1 true) = true :=
  (rms_spectrogram_shape_spec [[1], [1]] 2 1 2 true rfl).1 (by norm_num)

/-! ## Inversion lemmas for the pipeline -/

theorem frame_ok_inv {α : Type} {x : List α} {fl hop : ℕ}
    {frames : List (List α)} (h : frame x fl hop = .ok frames) :
    fl ≤ x.length ∧ 1 ≤ hop ∧ frames = strideSlice hop (windows x fl) := by
  by_cases c1 : x.length < fl
  · simp [frame, c1] at h
  · by_cases c2 : hop < 1
    · simp [frame, c1, c2] at h
    · refine ⟨Nat.le_of_not_lt c1, Nat.le_of_not_lt c2, ?_⟩
      simp only [frame, if_neg c1, if_neg c2, Except.ok.injEq] at h
      exact h.symm

theorem rms_y_ok_inv {y : List ℝ} {fl hop : ℕ} {r : List ℝ}
    (h : rms (some y) none fl hop true = .ok r) :
    fl ≤ y.length + 2 * (fl / 2) ∧ 1 ≤ hop ∧
    r.length = (strideSlice hop (windows (List.replicate (fl / 2) (0 : ℝ) ++ y ++
      List.replicate (fl / 2) 0) fl)).length := by
  simp only [rms, eq_self_iff_true, if_true] at h
  rcases hf : frame (List.replicate (fl / 2) (0 : ℝ) ++ y ++
      List.replicate (fl / 2) 0) fl hop with e | frames
  · rw [hf] at h
    simp [Except.map] at h
  · rw [hf] at h
    simp only [Except.map, Except.ok.injEq] at h
    obtain ⟨hlen, hhop, hfr⟩ := frame_ok_inv hf
    have hplen : (List.replicate (fl / 2) (0 : ℝ) ++ y ++
        List.replicate (fl / 2) 0).length = y.length + 2 * (fl / 2) := by
      simp
      omega
    refine ⟨by omega, hhop, ?_⟩
    rw [← h, ← hfr]
    simp

theorem amplitude_to_db_none_ok (S : List ℝ) (ref : Ref) (amin : ℝ)
    (ha : amin ≠ 0) :
    amplitude_to_db S ref amin none =
      .ok (((S.map (fun v => |v|)).map (fun v => v ^ 2)).map
        (fun s => 10 * Real.logb 10 (max (amin ^ 2) s) -
          10 * Real.logb 10 (max (amin ^ 2)
            ((ref.value (S.map (fun v => |v|))) ^ 2)))) := by
  have h2 : ¬ ((amin ^ 2 : ℝ) ≤ 0) := not_le.mpr (by positivity)
  simp [amplitude_to_db, power_to_db, h2, Ref.value, abs_sq]

/-- With an `ok` RMS result, the non-silence mask is the thresholded dB
list (with `amin = 1e-5` squared inside `power_to_db`). -/
theorem sftn_eval_of_rms {y : List ℝ} {fl hop : ℕ} {tdb : ℝ} {ref : Ref}
    {r : List ℝ} (hr : rms (some y) none fl hop true = .ok r) :
    signal_to_frame_nonsilent y fl hop tdb ref =
      .ok ((((r.map (fun v => |v|)).map (fun v => v ^ 2)).map
        (fun s => 10 * Real.logb 10 (max (((1 : ℝ)/100000) ^ 2) s) -
          10 * Real.logb 10 (max (((1 : ℝ)/100000) ^ 2)
            ((ref.value (r.map (fun v => |v|))) ^ 2)))).map
        (fun v => decide (-tdb < v))) := by
  rw [signal_to_frame_nonsilent, hr]
  show (amplitude_to_db r ref (1/100000) none).map _ = _
  rw [amplitude_to_db_none_ok r ref (1/100000) (by norm_num)]
  rfl

theorem sftn_ok_length {y : List ℝ} {fl hop : ℕ} {tdb : ℝ} {ref : Ref}
    {m : List Bool} (h : signal_to_frame_nonsilent y fl hop tdb ref = .ok m) :
    1 ≤ hop ∧ ∀ j, j < m.length → j * hop ≤ y.length := by
  rcases hr : rms (some y) none fl hop true with e | r
  · rw [signal_to_frame_nonsilent, hr] at h
    simp [Except.bind] at h
  · rw [sftn_eval_of_rms hr] at h
    obtain ⟨hlen, hhop, hrlen⟩ := rms_y_ok_inv hr
    refine ⟨hhop, fun j hj => ?_⟩
    have hm : m.length = r.length := by
      have h' := Except.ok.inj h
      rw [← h']
      simp
    rw [hm, hrlen, strideSlice_length hhop, windows_length] at hj
    have hplen : (List.replicate (fl / 2) (0 : ℝ) ++ y ++
        List.replicate (fl / 2) 0).length = y.length + 2 * (fl / 2) := by
      simp
      omega
    rw [hplen] at hj
    by_cases hw : y.length + 2 * (fl / 2) - (fl - 1) = 0
    · rw [if_pos hw] at hj
      omega
    · rw [if_neg hw] at hj
      have hjle : j ≤ (y.length + 2 * (fl / 2) - (fl - 1) - 1) / hop := by omega
      have := (Nat.le_div_iff_mul_le (by omega)).mp hjle
      omega

/-! ## `flatnonzero` -/

theorem flatnonzero_mem {m : List Bool} {j : ℕ} :
    j ∈ flatnonzero m ↔ j < m.length ∧ m.getD j false = true := by
  simp [flatnonzero, List.mem_filter, List.mem_range]

theorem flatnonzero_pairwise (m : List Bool) :
    (flatnonzero m).Pairwise (· < ·) :=
  (List.pairwise_lt_range _).filter _

theorem pairwise_head_le {a : ℕ} {l : List ℕ}
    (h : (a :: l).Pairwise (· < ·)) : ∀ x ∈ a :: l, a ≤ x := by
  intro x hx
  rcases List.mem_cons.mp hx with rfl | hx
  · exact le_rfl
  · exact le_of_lt (List.rel_of_pairwise_cons h hx)

theorem pairwise_le_getLast : ∀ {l : List ℕ} (hne : l ≠ []),
    l.Pairwise (· < ·) → ∀ x ∈ l, x ≤ l.getLast hne
  | [], hne, _, _, _ => absurd rfl hne
  | [a], _, _, x, hx => by
    simp only [List.mem_singleton] at hx
    simp [hx]
  | a :: b :: tl, _, h, x, hx => by
    rw [List.getLast_cons (List.cons_ne_nil b tl)]
    rcases List.mem_cons.mp hx with rfl | hx2
    · have hlast : (b :: tl).getLast (List.cons_ne_nil b tl) ∈ b :: tl :=
        List.getLast_mem _
      exact le_of_lt (List.rel_of_pairwise_cons h hlast)
    · exact pairwise_le_getLast (List.cons_ne_nil b tl) h.of_cons x hx2

/-! ## The trim orchestrator -/

theorem getD_true_lt_length {m : List Bool} {j : ℕ}
    (h : m.getD j false = true) : j < m.length := by
  by_contra hge
  rw [List.getD_eq_default _ _ (Nat.le_of_not_lt hge)] at h
  cases h

/-- C1: given the non-silence mask `m` computed by the classifier, `trim`
returns `start = end = 0` when `m` has no true entry; otherwise it returns
`start = (first nonsilent frame index) * hop_length` and
`end = min(len y, (last nonsilent frame index + 1) * hop_length)`; in every
case `0 ≤ start ≤ end ≤ len y` and the returned signal is the slice
`y[start:end]`. -/
theorem trim_spec (y : List ℝ) (tdb : ℝ) (ref : Ref) (fl hop : ℕ)
    (m : List Bool) (yt : List ℝ) (s e : ℕ)
    (hm : signal_to_frame_nonsilent y fl hop tdb ref = .ok m)
    (ht : trim y tdb ref fl hop = .ok (yt, s, e)) :
    ((∀ j, m.getD j false = false) → s = 0 ∧ e = 0) ∧
    (∀ j0 j1, IsLeast {j | m.getD j false = true} j0 →
      IsGreatest {j | m.getD j false = true} j1 →
      s = j0 * hop ∧ e = min y.length ((j1 + 1) * hop)) ∧
    s ≤ e ∧ e ≤ y.length ∧ yt = (y.drop s).take (e - s) := by
  obtain ⟨hhop, hbound⟩ := sftn_ok_length hm
  rw [trim, hm] at ht
  simp only [Except.map, Except.ok.injEq] at ht
  rcases hnz : flatnonzero m with _ | ⟨j0', rest⟩
  · rw [hnz] at ht
    simp only [Prod.mk.injEq] at ht
    obtain ⟨hyt, hs, he⟩ := ht
    subst hs
    subst he
    refine ⟨fun _ => ⟨rfl, rfl⟩, fun j0 j1 hle _ => ?_, le_rfl, Nat.zero_le _,
      hyt.symm⟩
    exfalso
    have hj0 : j0 ∈ flatnonzero m :=
      flatnonzero_mem.mpr ⟨getD_true_lt_length hle.1, hle.1⟩
    rw [hnz] at hj0
    cases hj0
  · rw [hnz] at ht
    simp only [frames_to_samples, Prod.mk.injEq] at ht
    obtain ⟨hyt, hs, he⟩ := ht
    have hpw : (j0' :: rest).Pairwise (· < ·) := by
      rw [← hnz]
      exact flatnonzero_pairwise m
    have hj0mem : j0' ∈ flatnonzero m := by
      rw [hnz]
      exact List.mem_cons_self _ _
    obtain ⟨hj0lt, hj0true⟩ := flatnonzero_mem.mp hj0mem
    have hLmem0 : (j0' :: rest).getLast (List.cons_ne_nil _ _) ∈ j0' :: rest :=
      List.getLast_mem _
    have hLmem : (j0' :: rest).getLast (List.cons_ne_nil _ _) ∈ flatnonzero m := by
      rw [hnz]
      exact hLmem0
    obtain ⟨hLlt, hLtrue⟩ := flatnonzero_mem.mp hLmem
    have hmem_of_true : ∀ x, m.getD x false = true → x ∈ j0' :: rest := by
      intro x hx
      rw [← hnz]
      exact flatnonzero_mem.mpr ⟨getD_true_lt_length hx, hx⟩
    have hj0L : j0' ≤ (j0' :: rest).getLast (List.cons_ne_nil _ _) :=
      pairwise_head_le hpw _ hLmem0
    have hsbound : j0' * hop ≤ y.length := hbound j0' hj0lt
    have hsle : j0' * hop + 0 ≤
        min y.length (((j0' :: rest).getLast (List.cons_ne_nil _ _) + 1) * hop + 0) := by
      refine le_min (by omega) ?_
      have : j0' * hop ≤ ((j0' :: rest).getLast (List.cons_ne_nil _ _) + 1) * hop :=
        Nat.mul_le_mul_right hop (by omega)
      omega
    refine ⟨fun hall => ?_, fun j0 j1 hle hge => ?_, ?_, ?_, ?_⟩
    · rw [hall j0'] at hj0true
      cases hj0true
    · have hle' : IsLeast {j | m.getD j false = true} j0' :=
        ⟨hj0true, fun x hx => pairwise_head_le hpw x (hmem_of_true x hx)⟩
      have hge' : IsGreatest {j | m.getD j false = true}
          ((j0' :: rest).getLast (List.cons_ne_nil _ _)) :=
        ⟨hLtrue, fun x hx =>
          pairwise_le_getLast (List.cons_ne_nil _ _) hpw x (hmem_of_true x hx)⟩
      have e1 : j0 = j0' := hle.unique hle'
      have e2 : j1 = (j0' :: rest).getLast (List.cons_ne_nil _ _) :=
        hge.unique hge'
      subst e1
      subst e2
      constructor
      · omega
      · rw [← he]
        omega
    · omega
    · rw [← he]
      exact le_trans (min_le_left _ _) (by omega)
    · rw [← hyt, ← hs, ← he]

/-- Witness for `trim_spec`: the all-zero two-sample signal with
`frame_length = hop_length = 1`, `top_db = 60`, `ref = np.max`. -/
theorem trim_spec_witness :
    (0 : ℕ) ≤ 2 ∧ 2 ≤ ([(0 : ℝ), 0] : List ℝ).length ∧
      ([(0 : ℝ), 0] : List ℝ) = (([(0 : ℝ), 0] : List ℝ).drop 0).take (2 - 0) := by
  have hrms0 : rms (some [(0 : ℝ), 0]) none 1 1 true = .ok [0, 0] := by
    simp [rms, frame, windows, List.range_succ, strideSlice_cons,
      strideSlice_nil, abs2, Except.map]
  have hmask : signal_to_frame_nonsilent [(0 : ℝ), 0] 1 1 60 (.callable listMax) =
      .ok [true, true] := by
    rw [sftn_eval_of_rms hrms0]
    norm_num [listMax, Ref.value]
  have htrim : trim [(0 : ℝ), 0] 60 (.callable listMax) 1 1 =
      .ok ([0, 0], 0, 2) := by
    rw [trim, hmask]
    rfl
  exact (trim_spec [0, 0] 60 (.callable listMax) 1 1 [true, true]
    [0, 0] 0 2 hmask htrim).2.2

/-! ## Idempotence of `trim` -/

/-- `trim` always returns the slice `y[start:end]`. -/
theorem trim_ok_slice {y : List ℝ} {tdb : ℝ} {ref : Ref} {fl hop : ℕ}
    {yt : List ℝ} {s e : ℕ}
    (ht : trim y tdb ref fl hop = .ok (yt, s, e)) :
    yt = (y.drop s).take (e - s) := by
  rcases hsf : signal_to_frame_nonsilent y fl hop tdb ref with er | m
  · rw [trim, hsf] at ht
    simp [Except.map] at ht
  · rw [trim, hsf] at ht
    simp only [Except.map, Except.ok.injEq] at ht
    rcases hnz : flatnonzero m with _ | ⟨j0, rest⟩ <;> rw [hnz] at ht <;>
        simp only [Prod.mk.injEq] at ht <;> obtain ⟨hyt, hs, he⟩ := ht <;>
      rw [← hyt, ← hs, ← he]

/-- At `top_db = 10` a frame is non-silent iff its power is within a
factor of ten of the reference power. -/
theorem neg_ten_lt_db_iff {p P : ℝ} (hp : 0 < p) (hP : 0 < P) :
    ((-10 : ℝ) < 10 * Real.logb 10 p - 10 * Real.logb 10 P) ↔ P < 10 * p := by
  have h10 : (1 : ℝ) < 10 := by norm_num
  have key : Real.logb 10 P - Real.logb 10 p < 1 ↔ P < 10 * p := by
    rw [← Real.logb_div (ne_of_gt hP) (ne_of_gt hp)]
    rw [show (1 : ℝ) = Real.logb 10 10 from (Real.logb_self_eq_one h10).symm]
    rw [Real.logb_lt_logb_iff h10 (div_pos hP hp) (by norm_num)]
    rw [div_lt_iff₀ hp]
  constructor <;> intro h
  · exact key.mp (by linarith)
  · have := key.mpr h
    linarith

/-- Evaluate the sample branch of `rms` through a given evaluation of the
per-frame mean-square powers. -/
theorem rms_y_eval {y : List ℝ} {fl hop : ℕ} {p : List ℝ}
    (h : (frame (List.replicate (fl / 2) (0 : ℝ) ++ y ++
        List.replicate (fl / 2) 0) fl hop).map
      (fun x => x.map (fun f => (f.map abs2).sum / (fl : ℝ))) = .ok p) :
    rms (some y) none fl hop true = .ok (p.map Real.sqrt) := by
  simp only [rms, eq_self_iff_true, if_true]
  rcases hf : frame (List.replicate (fl / 2) (0 : ℝ) ++ y ++
      List.replicate (fl / 2) 0) fl hop with e | frames
  · rw [hf] at h
    simp [Except.map] at h
  · rw [hf] at h
    simp only [Except.map, Except.ok.injEq] at h
    rw [← h]
    rfl

/-- Reduce the mask at `top_db = 10`, `ref = np.max`, to per-frame power
comparisons, given the concrete RMS values and their squares. -/
theorem mask_eval_of_parts {y : List ℝ} {fl hop : ℕ} {r p : List ℝ} {Pm : ℝ}
    (hr : rms (some y) none fl hop true = .ok r)
    (habs : r.map (fun v => |v|) = r)
    (hsq : r.map (fun v => v ^ 2) = p)
    (href : listMax r ^ 2 = Pm) :
    signal_to_frame_nonsilent y fl hop 10 (.callable listMax) =
      .ok (p.map (fun s => decide ((-(10 : ℝ)) <
        10 * Real.logb 10 (max (((1 : ℝ)/100000) ^ 2) s) -
        10 * Real.logb 10 (max (((1 : ℝ)/100000) ^ 2) Pm)))) := by
  rw [sftn_eval_of_rms hr, habs, hsq]
  simp only [Ref.value]
  rw [href, List.map_map]
  rfl

theorem rms_cex1_eval : rms (some [(1 : ℝ)/2, 1/2, 2]) none 2 1 true =
    .ok (List.map Real.sqrt [1/8, 1/4, 17/8, 2]) := by
  apply rms_y_eval
  simp [frame, windows, List.range_succ, strideSlice_cons,
    strideSlice_nil, abs2, Except.map]
  norm_num

theorem mask_cex1_eval :
    signal_to_frame_nonsilent [(1 : ℝ)/2, 1/2, 2] 2 1 10 (.callable listMax) =
      .ok [false, true, true, true] := by
  have hr : rms (some [(1 : ℝ)/2, 1/2, 2]) none 2 1 true =
      .ok [Real.sqrt (1/8), Real.sqrt (1/4), Real.sqrt (17/8),
        Real.sqrt 2] := by
    rw [rms_cex1_eval]
    simp only [List.map_cons, List.map_nil]
  have habs : [Real.sqrt (1/8), Real.sqrt (1/4), Real.sqrt (17/8),
      Real.sqrt 2].map (fun v => |v|) =
      [Real.sqrt (1/8), Real.sqrt (1/4), Real.sqrt (17/8), Real.sqrt 2] := by
    simp only [List.map_cons, List.map_nil]
    rw [abs_of_nonneg (Real.sqrt_nonneg _), abs_of_nonneg (Real.sqrt_nonneg _),
      abs_of_nonneg (Real.sqrt_nonneg _), abs_of_nonneg (Real.sqrt_nonneg _)]
  have hsq : [Real.sqrt (1/8), Real.sqrt (1/4), Real.sqrt (17/8),
      Real.sqrt 2].map (fun v => v ^ 2) = [1/8, 1/4, 17/8, 2] := by
    simp only [List.map_cons, List.map_nil]
    rw [Real.sq_sqrt (by norm_num), Real.sq_sqrt (by norm_num),
      Real.sq_sqrt (by norm_num), Real.sq_sqrt (by norm_num)]
  have href : listMax [Real.sqrt (1/8), Real.sqrt (1/4), Real.sqrt (17/8),
      Real.sqrt 2] ^ 2 = 17/8 := by
    have h1 : listMax [Real.sqrt (1/8), Real.sqrt (1/4), Real.sqrt (17/8),
        Real.sqrt 2] = Real.sqrt (17/8) := by
      simp only [listMax, List.foldl_cons, List.foldl_nil]
      rw [max_eq_right (Real.sqrt_le_sqrt (by norm_num)),
        max_eq_right (Real.sqrt_le_sqrt (by norm_num)),
        max_eq_left (Real.sqrt_le_sqrt (by norm_num))]
    rw [h1, Real.sq_sqrt (by norm_num)]
  rw [mask_eval_of_parts hr habs hsq href]
  congr 1
  rw [show max (((1 : ℝ)/100000) ^ 2) (17/8) = 17/8 from
    max_eq_right (by norm_num)]
  simp only [List.map_cons, List.map_nil]
  rw [show max (((1 : ℝ)/100000) ^ 2) (1/8) = 1/8 from
    max_eq_right (by norm_num)]
  rw [show max (((1 : ℝ)/100000) ^ 2) (1/4) = 1/4 from
    max_eq_right (by norm_num)]
  rw [show max (((1 : ℝ)/100000) ^ 2) (2 : ℝ) = 2 from
    max_eq_right (by norm_num)]
  simp only [List.cons.injEq, and_true]
  refine ⟨?_, ?_, ?_, ?_⟩
  · exact decide_eq_false (by
      rw [neg_ten_lt_db_iff (by norm_num) (by norm_num)]
      norm_num)
  · exact decide_eq_true (by
      rw [neg_ten_lt_db_iff (by norm_num) (by norm_num)]
      norm_num)
  · exact decide_eq_true (by
      rw [neg_ten_lt_db_iff (by norm_num) (by norm_num)]
      norm_num)
  · exact decide_eq_true (by
      rw [neg_ten_lt_db_iff (by norm_num) (by norm_num)]
      norm_num)

theorem rms_cex2_eval : rms (some [(1 : ℝ)/2, 2]) none 2 1 true =
    .ok (List.map Real.sqrt [1/8, 17/8, 2]) := by
  apply rms_y_eval
  simp [frame, windows, List.range_succ, strideSlice_cons,
    strideSlice_nil, abs2, Except.map]
  norm_num

theorem mask_cex2_eval :
    signal_to_frame_nonsilent [(1 : ℝ)/2, 2] 2 1 10 (.callable listMax) =
      .ok [false, true, true] := by
  have hr : rms (some [(1 : ℝ)/2, 2]) none 2 1 true =
      .ok [Real.sqrt (1/8), Real.sqrt (17/8), Real.sqrt 2] := by
    rw [rms_cex2_eval]
    simp only [List.map_cons, List.map_nil]
  have habs : [Real.sqrt (1/8), Real.sqrt (17/8),
      Real.sqrt 2].map (fun v => |v|) =
      [Real.sqrt (1/8), Real.sqrt (17/8), Real.sqrt 2] := by
    simp only [List.map_cons, List.map_nil]
    rw [abs_of_nonneg (Real.sqrt_nonneg _), abs_of_nonneg (Real.sqrt_nonneg _),
      abs_of_nonneg (Real.sqrt_nonneg _)]
  have hsq : [Real.sqrt (1/8), Real.sqrt (17/8),
      Real.sqrt 2].map (fun v => v ^ 2) = [1/8, 17/8, 2] := by
    simp only [List.map_cons, List.map_nil]
    rw [Real.sq_sqrt (by norm_num), Real.sq_sqrt (by norm_num),
      Real.sq_sqrt (by norm_num)]
  have href : listMax [Real.sqrt (1/8), Real.sqrt (17/8),
      Real.sqrt 2] ^ 2 = 17/8 := by
    have h1 : listMax [Real.sqrt (1/8), Real.sqrt (17/8),
        Real.sqrt 2] = Real.sqrt (17/8) := by
      simp only [listMax, List.foldl_cons, List.foldl_nil]
      rw [max_eq_right (Real.sqrt_le_sqrt (by norm_num)),
        max_eq_left (Real.sqrt_le_sqrt (by norm_num))]
    rw [h1, Real.sq_sqrt (by norm_num)]
  rw [mask_eval_of_parts hr habs hsq href]
  congr 1
  rw [show max (((1 : ℝ)/100000) ^ 2) (17/8) = 17/8 from
    max_eq_right (by norm_num)]
  simp only [List.map_cons, List.map_nil]
  rw [show max (((1 : ℝ)/100000) ^ 2) (1/8) = 1/8 from
    max_eq_right (by norm_num)]
  rw [show max (((1 : ℝ)/100000) ^ 2) (2 : ℝ) = 2 from
    max_eq_right (by norm_num)]
  simp only [List.cons.injEq, and_true]
  refine ⟨?_, ?_, ?_⟩
  · exact decide_eq_false (by
      rw [neg_ten_lt_db_iff (by norm_num) (by norm_num)]
      norm_num)
  · exact decide_eq_true (by
      rw [neg_ten_lt_db_iff (by norm_num) (by norm_num)]
      norm_num)
  · exact decide_eq_true (by
      rw [neg_ten_lt_db_iff (by norm_num) (by norm_num)]
      norm_num)

theorem trim_cex1_eval : trim [(1 : ℝ)/2, 1/2, 2] 10 (.callable listMax) 2 1 =
    .ok ([1/2, 2], 1, 3) := by
  rw [trim, mask_cex1_eval]
  rfl

theorem trim_cex2_eval : trim [(1 : ℝ)/2, 2] 10 (.callable listMax) 2 1 =
    .ok ([2], 1, 2) := by
  rw [trim, mask_cex2_eval]
  rfl

/-- Counterexample to C9: `trim` is not idempotent.  With
`y = [1/2, 1/2, 2]`, `frame_length = 2`, `hop_length = 1`, `top_db = 10`,
`ref = np.max`, the first trim keeps `y[1:3] = [1/2, 2]`, but trimming
`[1/2, 2]` again trims further to `[2]` with interval `[1, 2]`, not
`([1/2, 2], [0, 2])`. -/
theorem trim_not_idempotent :
    trim [(1 : ℝ)/2, 1/2, 2] 10 (.callable listMax) 2 1 =
      .ok ([1/2, 2], 1, 3) ∧
    trim [(1 : ℝ)/2, 2] 10 (.callable listMax) 2 1 = .ok ([2], 1, 2) ∧
    trim [(1 : ℝ)/2, 2] 10 (.callable listMax) 2 1 ≠
      .ok ([1/2, 2], 0, ([(1 : ℝ)/2, 2] : List ℝ).length) := by
  refine ⟨trim_cex1_eval, trim_cex2_eval, ?_⟩
  rw [trim_cex2_eval]
  simp

/-- C9 (amended): idempotence holds exactly in the case the first trim
removes nothing: if `trim(y, …) = (y_t, [0, len y])` then
`trim(y_t, …) = (y_t, [0, len y_t])`.  In general a second trim may
strictly shrink the signal further (`trim_not_idempotent`). -/
theorem trim_fixpoint_of_full (y : List ℝ) (tdb : ℝ) (ref : Ref)
    (fl hop : ℕ) (yt : List ℝ)
    (ht : trim y tdb ref fl hop = .ok (yt, 0, y.length)) :
    trim yt tdb ref fl hop = .ok (yt, 0, yt.length) := by
  have hyt : yt = y := by
    have h := trim_ok_slice ht
    simpa using h
  subst hyt
  exact ht

/-- Witness for `trim_fixpoint_of_full`: the all-zero two-sample signal is
returned whole, and re-trimming it is a fixpoint. -/
theorem trim_fixpoint_of_full_witness :
    trim [(0 : ℝ), 0] 60 (.callable listMax) 1 1 = .ok ([0, 0], 0, 2) := by
  have hrms0 : rms (some [(0 : ℝ), 0]) none 1 1 true = .ok [0, 0] := by
    simp [rms, frame, windows, List.range_succ, strideSlice_cons,
      strideSlice_nil, abs2, Except.map]
  have hmask : signal_to_frame_nonsilent [(0 : ℝ), 0] 1 1 60
      (.callable listMax) = .ok [true, true] := by
    rw [sftn_eval_of_rms hrms0]
    norm_num [listMax, Ref.value]
  have htrim : trim [(0 : ℝ), 0] 60 (.callable listMax) 1 1 =
      .ok ([0, 0], 0, 2) := by
    rw [trim, hmask]
    rfl
  exact trim_fixpoint_of_full [0, 0] 60 (.callable listMax) 1 1 [0, 0] htrim

end Kokoro
